import Mathlib

/-!
Verification development for the `axis_1553` repository: a MIL-STD-1553
word framer/transceiver core driven through an AXI streaming interface.
The repository ships only the cocotb testbench (`src/tb/tb_cocotb.py`);
the hardware core it exercises is absent, so the core's behaviour is
modelled from the specification, faithful to its words, and the
testbench fixes the concrete interface encodings (byte order, tag
values, reset pulse width).

Time is discrete: one tick is one clock cycle.  The constants `gapT`
(ticks in 4 microseconds), `wordT` (ticks past the first in one word's
serialization) and `settle` (ticks in the 200 ns reset settle delay)
are kept abstract in the model and instantiated concretely in
witnesses.
-/

/-- Sync-pattern kind of a MIL-STD-1553 word: command sync or data sync. -/
inductive SyncType
  | command
  | data
deriving DecidableEq

/-- Modelled from the spec: the transmit type tag selects the sync pattern
(`0x4` = command sync, `0x2` = data sync); the missing core's tag decoder. -/
def txSyncOf (tag : Nat) : Option SyncType :=
  if tag.testBit 2 then some SyncType.command
  else if tag.testBit 1 then some SyncType.data
  else none

/-- Modelled from the spec: bit 3 of the transmit type tag requests that the
core insert extra delay (`0xA` = with-delay variant); the missing core's
delay-request decoder. -/
def delayReq (tag : Nat) : Bool := tag.testBit 3

/-- Modelled from the spec: the receive classification tag, from least
significant bit: bits [2:0] sync-type code (`100` command, `010` data),
bit [3] the gap-at-least-4-microseconds flag, bit [4] reserved zero. -/
def rxTag (s : SyncType) (gapF : Bool) : Nat :=
  (cond gapF 8 0) + (match s with | SyncType.command => 4 | SyncType.data => 2)

/-- Least-significant `n` bits of `w`, LSB first. -/
def natToBits : Nat → Nat → List Bool
  | 0, _ => []
  | n + 1, w => decide (w % 2 = 1) :: natToBits n (w / 2)

/-- Value of a LSB-first bit list. -/
def bitsToNat : List Bool → Nat
  | [] => 0
  | b :: t => (cond b 1 0) + 2 * bitsToNat t

/-- Modelled from the spec: Manchester line coding of the missing core, one
bit becomes two half-bit chips, `1` = high then low, `0` = low then high. -/
def manchesterEncode : List Bool → List Bool
  | [] => []
  | b :: t => b :: (!b) :: manchesterEncode t

/-- Modelled from the spec: Manchester decoding of the missing core; a chip
pair whose halves agree is a line error and decodes to `none`. -/
def manchesterDecode : List Bool → Option (List Bool)
  | [] => some []
  | [_] => none
  | a :: b :: t =>
      if b = !a then (manchesterDecode t).map (fun l => a :: l) else none

/-- Modelled from the spec: odd-parity bit of the missing core, chosen so
that the 16 data bits plus the parity bit hold an odd number of ones. -/
def parityBit (l : List Bool) : Bool := !(l.foldr xor false)

/-- Modelled from the spec: the chip pattern of the three-bit-time sync
field of the missing core, command sync high then low, data sync inverted. -/
def syncChips : SyncType → List Bool
  | SyncType.command => [true, true, true, false, false, false]
  | SyncType.data => [false, false, false, true, true, true]

/-- The 16 bits of a word, most significant first, as put on the bus. -/
def msb16 (w : Nat) : List Bool := (natToBits 16 w).reverse

/-- Modelled from the spec: serialization of one bus word by the missing
core: sync chips, then 16 data bits and the odd-parity bit, Manchester
coded. -/
def encodeBusWord (s : SyncType) (w : Nat) : List Bool :=
  syncChips s ++ manchesterEncode (msb16 w ++ [parityBit (msb16 w)])

/-- Modelled from the spec: decoding of the body after the sync field by the
missing core: Manchester-decode 17 bits, check length and odd parity, and
return the word. -/
def decodeBody (s : SyncType) (rest : List Bool) : Option (SyncType × Nat) :=
  match manchesterDecode rest with
  | none => none
  | some bits =>
      if bits.length = 17 then
        if bits.drop 16 = [parityBit (bits.take 16)] then
          some (s, bitsToNat (bits.take 16).reverse)
        else none
      else none

/-- Modelled from the spec: the receive-side word decoder of the missing
core: classify the sync field, then decode the body; an unrecognized sync
pattern is a decode failure. -/
def decodeBusWord (chips : List Bool) : Option (SyncType × Nat) :=
  match chips with
  | true :: true :: true :: false :: false :: false :: rest =>
      decodeBody SyncType.command rest
  | false :: false :: false :: true :: true :: true :: rest =>
      decodeBody SyncType.data rest
  | _ => none

theorem manchester_roundtrip (l : List Bool) :
    manchesterDecode (manchesterEncode l) = some l := by
  induction l with
  | nil => rfl
  | cons b t ih => simp [manchesterEncode, manchesterDecode, ih]

theorem natToBits_length (n w : Nat) : (natToBits n w).length = n := by
  induction n generalizing w with
  | zero => rfl
  | succ n ih => simp [natToBits, ih]

theorem bitsToNat_natToBits (n w : Nat) (h : w < 2 ^ n) :
    bitsToNat (natToBits n w) = w := by
  induction n generalizing w with
  | zero =>
      interval_cases w
      rfl
  | succ n ih =>
      have hdiv : w / 2 < 2 ^ n := by
        have h2 : w < 2 ^ n * 2 := by
          rw [pow_succ] at h
          exact h
        exact Nat.div_lt_of_lt_mul (by omega)
      have ihw := ih (w / 2) hdiv
      rcases Nat.mod_two_eq_zero_or_one w with h0 | h1
      · simp [natToBits, bitsToNat, h0, ihw]
        omega
      · simp [natToBits, bitsToNat, h1, ihw]
        omega

theorem take_len_append (l₁ l₂ : List Bool) : (l₁ ++ l₂).take l₁.length = l₁ := by
  induction l₁ with
  | nil => rfl
  | cons a t ih => simp [ih]

theorem drop_len_append (l₁ l₂ : List Bool) : (l₁ ++ l₂).drop l₁.length = l₂ := by
  induction l₁ with
  | nil => rfl
  | cons a t ih => simp [ih]

theorem msb16_length (w : Nat) : (msb16 w).length = 16 := by
  simp [msb16, natToBits_length]

theorem decodeBody_encode (s : SyncType) (w : Nat) (h : w < 65536) :
    decodeBody s (manchesterEncode (msb16 w ++ [parityBit (msb16 w)])) =
      some (s, w) := by
  have hm := manchester_roundtrip (msb16 w ++ [parityBit (msb16 w)])
  have hlen : (msb16 w ++ [parityBit (msb16 w)]).length = 17 := by
    simp [msb16_length]
  have htake : (msb16 w ++ [parityBit (msb16 w)]).take 16 = msb16 w := by
    have := take_len_append (msb16 w) [parityBit (msb16 w)]
    rwa [msb16_length w] at this
  have hdrop : (msb16 w ++ [parityBit (msb16 w)]).drop 16 = [parityBit (msb16 w)] := by
    have := drop_len_append (msb16 w) [parityBit (msb16 w)]
    rwa [msb16_length w] at this
  have hval : bitsToNat (msb16 w).reverse = w := by
    have : (msb16 w).reverse = natToBits 16 w := by
      simp [msb16]
    rw [this]
    exact bitsToNat_natToBits 16 w (by omega)
  simp [decodeBody, hm, hlen, htake, hdrop, hval]

theorem decode_encode (s : SyncType) (w : Nat) (h : w < 65536) :
    decodeBusWord (encodeBusWord s w) = some (s, w) := by
  cases s <;>
    simpa [encodeBusWord, syncChips, decodeBusWord] using
      decodeBody_encode _ w h

/-- Modelled from the spec: the two states of the missing core's shared
reset state machine, with the settle countdown made explicit. -/
inductive RState
  | inReset
  | settling (n : Nat)
  | active
deriving DecidableEq

/-- Modelled from the spec: one clock tick of the missing core's shared
reset state machine: assertion of reset forces IN_RESET at once; after
deassertion a settle countdown of `settle` ticks runs before ACTIVE. -/
def resetStep (settle : Nat) (rst : Bool) (s : RState) : RState :=
  if rst then RState.inReset
  else
    match s with
    | RState.inReset => if settle ≤ 1 then RState.active else RState.settling (settle - 1)
    | RState.settling n => if n ≤ 1 then RState.active else RState.settling (n - 1)
    | RState.active => RState.active

/-- Trace of the reset state machine from IN_RESET with reset deasserted. -/
def resetRun (settle : Nat) : Nat → RState
  | 0 => RState.inReset
  | k + 1 => resetStep settle false (resetRun settle k)

/-- Modelled from the spec: the phases of the missing core's transmit path.
`busy n` drives the bus (bus-active high) for `n` further ticks; `gap n`
waits out the mandatory 4-microsecond floor; `holdoff n` waits out a
caller-requested extra delay before serialization. -/
inductive TxPhase
  | idle
  | holdoff (n : Nat)
  | busy (n : Nat)
  | gap (n : Nat)
deriving DecidableEq

/-- Streaming input seen by the transmit path on one tick. -/
structure TxIn where
  valid : Bool
  tag : Nat

/-- Modelled from the spec: one clock tick of the missing core's transmit
path.  A word is accepted only in `idle`; a delay-requesting tag first
inserts `gapT` holdoff ticks; serialization takes `wordT + 1` active
ticks; after bus-active deasserts, `gapT + 1` gap ticks run before the
next acceptance. -/
def txStep (wordT gapT : Nat) (i : TxIn) : TxPhase → TxPhase
  | TxPhase.idle =>
      if i.valid then
        if delayReq i.tag then TxPhase.holdoff gapT else TxPhase.busy wordT
      else TxPhase.idle
  | TxPhase.holdoff 0 => TxPhase.busy wordT
  | TxPhase.holdoff (n + 1) => TxPhase.holdoff n
  | TxPhase.busy 0 => TxPhase.gap gapT
  | TxPhase.busy (n + 1) => TxPhase.busy n
  | TxPhase.gap 0 => TxPhase.idle
  | TxPhase.gap (n + 1) => TxPhase.gap n

/-- Bus-active output of the transmit path. -/
def txActive : TxPhase → Bool
  | TxPhase.busy _ => true
  | _ => false

/-- Transmit-path readiness with reset deasserted. -/
def txReadyB : TxPhase → Bool
  | TxPhase.idle => true
  | _ => false

/-- Transmit-path trace from `idle` (just out of reset) under the input
stream `ins`. -/
def txStates (wordT gapT : Nat) (ins : Nat → TxIn) : Nat → TxPhase
  | 0 => TxPhase.idle
  | t + 1 => txStep wordT gapT (ins t) (txStates wordT gapT ins t)

/-- Modelled from the spec: the whole-core state, the shared reset machine
together with the transmit phase, for the reset-gating claims. -/
structure Core where
  rstate : RState
  txph : TxPhase

/-- Power-on state of the core before any clock edge: fail-safe IN_RESET. -/
def powerOn : Core := { rstate := RState.inReset, txph := TxPhase.idle }

/-- Modelled from the spec: the streaming input-ready output, gated
combinationally by the asynchronous reset and by the reset state machine
being ACTIVE. -/
def tready (rst : Bool) (c : Core) : Bool :=
  !rst && decide (c.rstate = RState.active) && txReadyB c.txph

/-- One receive-side word completion: when it finished and its sync kind. -/
structure RxEvent where
  time : Nat
  sync : SyncType

/-- Modelled from the spec: the missing core's gap flag, true when at least
`gapT` ticks (4 microseconds) elapsed since the previous word's
completion, false for the first word after reset. -/
def gapFlag (last : Option Nat) (t : Nat) (gapT : Nat) : Bool :=
  match last with
  | none => false
  | some t0 => decide (gapT ≤ t - t0)

/-- Modelled from the spec: the classification tags emitted by the missing
core's receive path for a list of word completions, carrying the previous
completion time (none right after reset). -/
def rxTags (gapT : Nat) : Option Nat → List RxEvent → List Nat
  | _, [] => []
  | last, e :: rest =>
      rxTag e.sync (gapFlag last e.time gapT) :: rxTags gapT (some e.time) rest

/-- Receive classification tags for a completion list starting from reset. -/
def rxTagsFromReset (gapT : Nat) (es : List RxEvent) : List Nat :=
  rxTags gapT none es

/-- Modelled from the spec: the receive path's hold buffer and streaming
output, words handed off so far plus words still held. -/
structure RxPipe where
  buf : List (SyncType × Nat)
  out : List (SyncType × Nat)

/-- Modelled from the spec: with hold-enable active the missing core
buffers each decoded bus word rather than dropping it; an undecodable
chip sequence yields nothing. -/
def rxFeedChips (p : RxPipe) (chips : List Bool) : RxPipe :=
  match decodeBusWord chips with
  | none => p
  | some sw => { buf := p.buf ++ [sw], out := p.out }

/-- Modelled from the spec: a ready consumer takes every held word off the
hold buffer in order. -/
def rxHandoff (p : RxPipe) : RxPipe := { buf := [], out := p.out ++ p.buf }

/-- Receive run with hold-enable active and a consumer that accepts each
word as the testbench does: feed one bus word, then hand off. -/
def rxRunHold (cs : List (List Bool)) : RxPipe :=
  cs.foldl (fun p c => rxHandoff (rxFeedChips p c)) { buf := [], out := [] }

/-- The command/data word pairs of the incrementing test, word values
reduced to 16 bits. -/
def mkPairs (n : Nat) : List (SyncType × Nat) :=
  (List.range n).flatMap
    (fun x => [(SyncType.command, x % 65536), (SyncType.data, x % 65536)])

/-- The serialized bus stream of the incrementing test's word pairs. -/
def busStream (n : Nat) : List (List Bool) :=
  (mkPairs n).map (fun p => encodeBusWord p.1 p.2)

/-- The two little-endian bytes carrying a 16-bit word on the streaming
interface (testbench: `x.to_bytes(length = 2, byteorder = 'little')`). -/
def toBytesLE (w : Nat) : List Nat := [w % 256, w / 256 % 256]

/-- The 16-bit word carried by two little-endian streaming bytes. -/
def fromBytesLE : List Nat → Nat
  | [b0, b1] => b0 + 256 * b1
  | _ => 0

theorem txStates_gap_run (wordT gapT : Nat) (ins : Nat → TxIn) :
    ∀ (k n t : Nat), k ≤ n → txStates wordT gapT ins t = TxPhase.gap n →
      txStates wordT gapT ins (t + k) = TxPhase.gap (n - k) := by
  intro k
  induction k with
  | zero => intro n t _ h; simpa using h
  | succ k ih =>
      intro n t hk h
      obtain ⟨m, rfl⟩ : ∃ m, n = m + 1 := ⟨n - 1, by omega⟩
      have h1 : txStates wordT gapT ins (t + 1) = TxPhase.gap m := by
        simp [txStates, h, txStep]
      have h2 := ih m (t + 1) (by omega) h1
      have harith : t + (k + 1) = (t + 1) + k := by omega
      rw [harith, h2]
      congr 1
      omega

theorem txStates_gap_idle (wordT gapT : Nat) (ins : Nat → TxIn) (n t : Nat)
    (h : txStates wordT gapT ins t = TxPhase.gap n) :
    txStates wordT gapT ins (t + n + 1) = TxPhase.idle := by
  have h0 := txStates_gap_run wordT gapT ins n n t le_rfl h
  have : txStates wordT gapT ins (t + n) = TxPhase.gap 0 := by
    simpa using h0
  simp [txStates, this, txStep]

theorem txStates_busy_run (wordT gapT : Nat) (ins : Nat → TxIn) :
    ∀ (k n t : Nat), k ≤ n → txStates wordT gapT ins t = TxPhase.busy n →
      txStates wordT gapT ins (t + k) = TxPhase.busy (n - k) := by
  intro k
  induction k with
  | zero => intro n t _ h; simpa using h
  | succ k ih =>
      intro n t hk h
      obtain ⟨m, rfl⟩ : ∃ m, n = m + 1 := ⟨n - 1, by omega⟩
      have h1 : txStates wordT gapT ins (t + 1) = TxPhase.busy m := by
        simp [txStates, h, txStep]
      have h2 := ih m (t + 1) (by omega) h1
      have harith : t + (k + 1) = (t + 1) + k := by omega
      rw [harith, h2]
      congr 1
      omega

theorem txStates_busy_gap (wordT gapT : Nat) (ins : Nat → TxIn) (n t : Nat)
    (h : txStates wordT gapT ins t = TxPhase.busy n) :
    txStates wordT gapT ins (t + n + 1) = TxPhase.gap gapT := by
  have h0 := txStates_busy_run wordT gapT ins n n t le_rfl h
  have : txStates wordT gapT ins (t + n) = TxPhase.busy 0 := by
    simpa using h0
  simp [txStates, this, txStep]

theorem txStates_hold_run (wordT gapT : Nat) (ins : Nat → TxIn) :
    ∀ (k n t : Nat), k ≤ n → txStates wordT gapT ins t = TxPhase.holdoff n →
      txStates wordT gapT ins (t + k) = TxPhase.holdoff (n - k) := by
  intro k
  induction k with
  | zero => intro n t _ h; simpa using h
  | succ k ih =>
      intro n t hk h
      obtain ⟨m, rfl⟩ : ∃ m, n = m + 1 := ⟨n - 1, by omega⟩
      have h1 : txStates wordT gapT ins (t + 1) = TxPhase.holdoff m := by
        simp [txStates, h, txStep]
      have h2 := ih m (t + 1) (by omega) h1
      have harith : t + (k + 1) = (t + 1) + k := by omega
      rw [harith, h2]
      congr 1
      omega

theorem txStates_hold_busy (wordT gapT : Nat) (ins : Nat → TxIn) (n t : Nat)
    (h : txStates wordT gapT ins t = TxPhase.holdoff n) :
    txStates wordT gapT ins (t + n + 1) = TxPhase.busy wordT := by
  have h0 := txStates_hold_run wordT gapT ins n n t le_rfl h
  have : txStates wordT gapT ins (t + n) = TxPhase.holdoff 0 := by
    simpa using h0
  simp [txStates, this, txStep]

theorem txStates_idle_stay (wordT gapT : Nat) (ins : Nat → TxIn) (t : Nat)
    (h : txStates wordT gapT ins t = TxPhase.idle)
    (hv : (ins t).valid = false) :
    txStates wordT gapT ins (t + 1) = TxPhase.idle := by
  simp [txStates, h, txStep, hv]

theorem txStates_idle_forever (wordT gapT : Nat) (ins : Nat → TxIn) (t v : Nat)
    (hq : ∀ u, t ≤ u → (ins u).valid = false) (htv : t ≤ v)
    (h : txStates wordT gapT ins v = TxPhase.idle) :
    ∀ u, v ≤ u → txStates wordT gapT ins u = TxPhase.idle := by
  have key : ∀ d, txStates wordT gapT ins (v + d) = TxPhase.idle := by
    intro d
    induction d with
    | zero => simpa using h
    | succ d ih =>
        exact txStates_idle_stay wordT gapT ins (v + d) ih (hq (v + d) (by omega))
  intro u hu
  obtain ⟨d, rfl⟩ := Nat.exists_eq_add_of_le hu
  exact key d

/-- Ticks until the transmit path is back in `idle` with no further input. -/
def txRemaining (wordT gapT : Nat) : TxPhase → Nat
  | TxPhase.idle => 0
  | TxPhase.holdoff n => (n + 1) + (wordT + 1) + (gapT + 1)
  | TxPhase.busy n => (n + 1) + (gapT + 1)
  | TxPhase.gap n => n + 1

theorem resetRun_pos_lt (settle : Nat) :
    ∀ k, 1 ≤ k → k < settle → resetRun settle k = RState.settling (settle - k) := by
  intro k
  induction k with
  | zero => intro h1 _; omega
  | succ k ih =>
      intro _ hk
      cases k with
      | zero =>
          have h2 : ¬ settle ≤ 1 := by omega
          show resetStep settle false (resetRun settle 0) = RState.settling (settle - 1)
          simp [resetRun, resetStep, h2]
      | succ j =>
          have ihk := ih (by omega) (by omega)
          have h2 : ¬ (settle - (j + 1)) ≤ 1 := by omega
          have h3 : settle - (j + 1) - 1 = settle - (j + 2) := by omega
          show resetStep settle false (resetRun settle (j + 1)) =
            RState.settling (settle - (j + 2))
          rw [ihk]
          simp [resetStep, h2, h3]

theorem resetRun_settle (settle : Nat) (h : 0 < settle) :
    resetRun settle settle = RState.active := by
  cases settle with
  | zero => omega
  | succ m =>
      cases m with
      | zero => simp [resetRun, resetStep]
      | succ j =>
          have hr := resetRun_pos_lt (j + 2) (j + 1) (by omega) (by omega)
          have h3 : j + 2 - (j + 1) = 1 := by omega
          rw [h3] at hr
          show resetStep (j + 2) false (resetRun (j + 2) (j + 1)) = RState.active
          rw [hr]
          simp [resetStep]

theorem rxTag_testBit3 (s : SyncType) (g : Bool) : (rxTag s g).testBit 3 = g := by
  cases s <;> cases g <;> decide

/-- Default receive event used only as the out-of-range value of `List.getD`. -/
def defaultEv : RxEvent := { time := 0, sync := SyncType.command }

theorem rxTags_length (gapT : Nat) :
    ∀ (es : List RxEvent) (last : Option Nat), (rxTags gapT last es).length = es.length := by
  intro es
  induction es with
  | nil => intro last; rfl
  | cons e rest ih => intro last; simp [rxTags, ih]

theorem rxTags_getD_succ (gapT : Nat) :
    ∀ (es : List RxEvent) (last : Option Nat) (i : Nat), i + 1 < es.length →
      (rxTags gapT last es).getD (i + 1) 0 =
        rxTag (es.getD (i + 1) defaultEv).sync
          (gapFlag (some ((es.getD i defaultEv).time)) ((es.getD (i + 1) defaultEv).time) gapT) := by
  intro es
  induction es with
  | nil => intro last i h; simp at h
  | cons e rest ih =>
      intro last i h
      cases i with
      | zero =>
          cases rest with
          | nil => simp at h
          | cons e2 rest2 => simp [rxTags]
      | succ j =>
          have h2 : j + 1 < rest.length := by
            simp at h
            omega
          have := ih (some e.time) j h2
          simpa [rxTags] using this

theorem rxRunHold_spec :
    ∀ (cs : List (List Bool)) (p : RxPipe), p.buf = [] →
      (cs.foldl (fun q c => rxHandoff (rxFeedChips q c)) p).buf = []
      ∧ (cs.foldl (fun q c => rxHandoff (rxFeedChips q c)) p).out =
          p.out ++ cs.filterMap decodeBusWord := by
  intro cs
  induction cs with
  | nil => intro p h; exact ⟨h, by simp⟩
  | cons c cs ih =>
      intro p h
      cases hdec : decodeBusWord c with
      | none =>
          have hstep : rxHandoff (rxFeedChips p c) =
              { buf := [], out := p.out } := by
            simp [rxFeedChips, hdec, rxHandoff, h]
          have := ih (rxHandoff (rxFeedChips p c)) (by rw [hstep])
          rw [hstep] at this
          simpa [List.foldl, hstep, List.filterMap_cons, hdec] using this
      | some sw =>
          have hstep : rxHandoff (rxFeedChips p c) =
              { buf := [], out := p.out ++ [sw] } := by
            simp [rxFeedChips, hdec, rxHandoff, h]
          have := ih (rxHandoff (rxFeedChips p c)) (by rw [hstep])
          rw [hstep] at this
          simpa [List.foldl, hstep, List.filterMap_cons, hdec] using this

theorem encode_filterMap :
    ∀ (l : List (SyncType × Nat)), (∀ q ∈ l, q.2 < 65536) →
      (l.map (fun q => encodeBusWord q.1 q.2)).filterMap decodeBusWord = l := by
  intro l
  induction l with
  | nil => intro _; rfl
  | cons q l ih =>
      intro hb
      have h1 : q.2 < 65536 := hb q (by simp)
      have hd := decode_encode q.1 q.2 h1
      have hrest := ih (fun r hr => hb r (by simp [hr]))
      simp [List.filterMap_cons, hd, hrest]

theorem mkPairs_bound (n : Nat) : ∀ q ∈ mkPairs n, q.2 < 65536 := by
  intro q hq
  simp [mkPairs] at hq
  obtain ⟨x, -, hx⟩ := hq
  rcases hx with h | h <;> subst h <;> exact Nat.mod_lt _ (by omega)

/-- Claim C1: for every 16-bit word w (the full range 0..65535, not only
the tested 0..255), transmitting w with the command type tag (`0x4`) and
then with the data type tag (`0x2`) and decoding the resulting serialized
bus signal yields the same word w both times, and the receive-side
classification of those two bus words carries sync-type code `100` (= 4)
for the command word and `010` (= 2) for the data word in the low three
bits of the tag. -/
theorem c1_roundtrip (w : Nat) (h : w < 65536) :
    txSyncOf 4 = some SyncType.command
    ∧ txSyncOf 2 = some SyncType.data
    ∧ decodeBusWord (encodeBusWord SyncType.command w) = some (SyncType.command, w)
    ∧ decodeBusWord (encodeBusWord SyncType.data w) = some (SyncType.data, w)
    ∧ rxTag SyncType.command false % 8 = 4
    ∧ rxTag SyncType.command true % 8 = 4
    ∧ rxTag SyncType.data false % 8 = 2
    ∧ rxTag SyncType.data true % 8 = 2 :=
  ⟨by decide, by decide, decode_encode SyncType.command w h,
   decode_encode SyncType.data w h, by decide, by decide, by decide, by decide⟩

/-- Claim C2: in every state in which reset is asserted the transmit-path
streaming input-ready signal reads false; and in the power-on state,
which the core never leaves when no clock is supplied, input-ready reads
false regardless of the reset input (the core behaves as if perpetually
in reset). -/
theorem c2_reset_gating :
    (∀ c : Core, tready true c = false)
    ∧ (∀ rst : Bool, tready rst powerOn = false) := by
  constructor
  · intro c; rfl
  · intro rst; cases rst <;> rfl

/-- Claim C3: whenever bus-active deasserts at the end of a word, it stays
deasserted for at least `gapT + 1` further ticks (the 4-microsecond
floor), so the interval between consecutive bus-active intervals is never
less than 4 microseconds; and a word accepted with a delay-requesting
type tag sees bus-active deasserted for at least `gapT + 1` ticks from
its acceptance, even though the minimum gap was already satisfied in the
`idle` phase. -/
theorem c3_min_gap (wordT gapT : Nat) (ins : Nat → TxIn) (t : Nat) :
    (txActive (txStates wordT gapT ins t) = true →
      txActive (txStates wordT gapT ins (t + 1)) = false →
      ∀ k, k ≤ gapT + 1 → txActive (txStates wordT gapT ins (t + 1 + k)) = false)
    ∧ (txStates wordT gapT ins t = TxPhase.idle →
      (ins t).valid = true →
      delayReq (ins t).tag = true →
      ∀ k, k ≤ gapT + 1 → txActive (txStates wordT gapT ins (t + k)) = false) := by
  constructor
  · intro ha hd k hk
    cases hst : txStates wordT gapT ins t with
    | idle => rw [hst] at ha; simp [txActive] at ha
    | holdoff n => rw [hst] at ha; simp [txActive] at ha
    | gap n => rw [hst] at ha; simp [txActive] at ha
    | busy m =>
        cases m with
        | succ j =>
            have hb : txStates wordT gapT ins (t + 1) = TxPhase.busy j := by
              simp [txStates, hst, txStep]
            rw [hb] at hd
            simp [txActive] at hd
        | zero =>
            have hg : txStates wordT gapT ins (t + 1) = TxPhase.gap gapT := by
              simp [txStates, hst, txStep]
            by_cases hk2 : k ≤ gapT
            · have := txStates_gap_run wordT gapT ins k gapT (t + 1) hk2 hg
              rw [this]; rfl
            · have hkeq : k = gapT + 1 := by omega
              subst hkeq
              have hidle := txStates_gap_idle wordT gapT ins gapT (t + 1) hg
              have harith : t + 1 + (gapT + 1) = t + 1 + gapT + 1 := by omega
              rw [harith, hidle]; rfl
  · intro hi hv hd k hk
    have h1 : txStates wordT gapT ins (t + 1) = TxPhase.holdoff gapT := by
      simp [txStates, hi, txStep, hv, hd]
    cases k with
    | zero => rw [Nat.add_zero, hi]; rfl
    | succ j =>
        have hj : j ≤ gapT := by omega
        have h2 := txStates_hold_run wordT gapT ins j gapT (t + 1) hj h1
        have harith : t + (j + 1) = t + 1 + j := by omega
        rw [harith, h2]; rfl

/-- Claim C4: for every received word after the first, the gap-flag bit
(bit 3) of the 5-bit receive classification tag equals 1 exactly when at
least `gapT` ticks (4 microseconds) elapsed since completion of the
previous bus word, and 0 exactly when less elapsed, regardless of the
word's sync type. -/
theorem c4_gap_flag (gapT : Nat) (es : List RxEvent) (i : Nat)
    (h : i + 1 < es.length) :
    ((rxTagsFromReset gapT es).getD (i + 1) 0).testBit 3 =
      decide (gapT ≤ (es.getD (i + 1) defaultEv).time - (es.getD i defaultEv).time) := by
  have hg := rxTags_getD_succ gapT es none i h
  simp only [rxTagsFromReset]
  rw [hg, rxTag_testBit3]
  rfl

/-- Claim C5: the first word decoded by the receive path after reset has no
prior timing reference and always reports gap-flag bit 3 of its
classification tag as 0. -/
theorem c5_first_word_flag (gapT : Nat) (e : RxEvent) (es : List RxEvent) :
    ((rxTagsFromReset gapT (e :: es)).getD 0 0).testBit 3 = false := by
  have hh : (rxTagsFromReset gapT (e :: es)).getD 0 0 = rxTag e.sync false := by
    simp [rxTagsFromReset, rxTags, gapFlag]
  rw [hh]
  exact rxTag_testBit3 e.sync false

/-- Claim C6: once the transmit path's current word (and the mandatory gap)
has run out, with no further input offered, the transmit phase returns to
`idle` and the streaming input-ready signal reads true from then on: the
core does not remain stalled after a burst. -/
theorem c6_no_stall (wordT gapT : Nat) (ins : Nat → TxIn) (t : Nat)
    (hq : ∀ u, t ≤ u → (ins u).valid = false) :
    ∀ u, t + txRemaining wordT gapT (txStates wordT gapT ins t) ≤ u →
      txReadyB (txStates wordT gapT ins u) = true := by
  have hidle : txStates wordT gapT ins
      (t + txRemaining wordT gapT (txStates wordT gapT ins t)) = TxPhase.idle := by
    cases hst : txStates wordT gapT ins t with
    | idle =>
        simpa [txRemaining] using hst
    | holdoff n =>
        have h1 := txStates_hold_busy wordT gapT ins n t hst
        have h2 := txStates_busy_gap wordT gapT ins wordT (t + n + 1) h1
        have h3 := txStates_gap_idle wordT gapT ins gapT (t + n + 1 + wordT + 1) h2
        have hrem : txRemaining wordT gapT (TxPhase.holdoff n) =
            (n + 1) + (wordT + 1) + (gapT + 1) := rfl
        have harith : t + txRemaining wordT gapT (TxPhase.holdoff n) =
            t + n + 1 + wordT + 1 + gapT + 1 := by omega
        rw [harith]
        exact h3
    | busy n =>
        have h1 := txStates_busy_gap wordT gapT ins n t hst
        have h2 := txStates_gap_idle wordT gapT ins gapT (t + n + 1) h1
        have hrem : txRemaining wordT gapT (TxPhase.busy n) =
            (n + 1) + (gapT + 1) := rfl
        have harith : t + txRemaining wordT gapT (TxPhase.busy n) =
            t + n + 1 + gapT + 1 := by omega
        rw [harith]
        exact h2
    | gap n =>
        have h1 := txStates_gap_idle wordT gapT ins n t hst
        have hrem : txRemaining wordT gapT (TxPhase.gap n) = n + 1 := rfl
        have harith : t + txRemaining wordT gapT (TxPhase.gap n) = t + n + 1 := by omega
        rw [harith]
        exact h1
  intro u hu
  have hge : t ≤ t + txRemaining wordT gapT (txStates wordT gapT ins t) := by omega
  have := txStates_idle_forever wordT gapT ins t
    (t + txRemaining wordT gapT (txStates wordT gapT ins t)) hq hge hidle u hu
  rw [this]
  rfl

/-- Claim C7: for every N, after the bus stream of N command/data word
pairs has been fully received with hold-enable active and a consuming
sink, no residual buffered word remains in the receive path and every
decoded word was handed off at the streaming output, in order. -/
theorem c7_buffer_drain (n : Nat) :
    (rxRunHold (busStream n)).buf = []
    ∧ (rxRunHold (busStream n)).out = mkPairs n := by
  have h := rxRunHold_spec (busStream n) { buf := [], out := [] } rfl
  have hfm : (busStream n).filterMap decodeBusWord = mkPairs n := by
    have := encode_filterMap (mkPairs n) (mkPairs_bound n)
    simpa [busStream] using this
  exact ⟨h.1, by simpa [rxRunHold, hfm] using h.2⟩

/-- Claim C8: the shared reset state machine moves from IN_RESET to ACTIVE
only after the fixed settle delay of `settle` ticks (200 ns in the
verification harness) following deassertion of reset — it is not ACTIVE
at any earlier tick — and moves from any state to IN_RESET immediately
upon assertion of reset. -/
theorem c8_reset_settle (settle : Nat) (h : 0 < settle) :
    (∀ s, resetStep settle true s = RState.inReset)
    ∧ (∀ k, k < settle → resetRun settle k ≠ RState.active)
    ∧ resetRun settle settle = RState.active := by
  refine ⟨fun s => by simp [resetStep], ?_, resetRun_settle settle h⟩
  intro k hk
  cases k with
  | zero => simp [resetRun]
  | succ j =>
      have hr := resetRun_pos_lt settle (j + 1) (by omega) hk
      rw [hr]
      simp

/-- Claim C9: every 16-bit word crossing the streaming interface is
carried as exactly two bytes in little-endian order, least-significant
byte first, and the round-trip identity through the bus encoding holds
with respect to this byte order in both directions. -/
theorem c9_little_endian (w : Nat) (h : w < 65536) :
    fromBytesLE (toBytesLE w) = w
    ∧ (toBytesLE w).length = 2
    ∧ w % 256 < 256
    ∧ w / 256 % 256 < 256
    ∧ decodeBusWord (encodeBusWord SyncType.command (fromBytesLE (toBytesLE w))) =
        some (SyncType.command, w)
    ∧ decodeBusWord (encodeBusWord SyncType.data (fromBytesLE (toBytesLE w))) =
        some (SyncType.data, w) := by
  have hb : fromBytesLE (toBytesLE w) = w := by
    simp only [toBytesLE, fromBytesLE]
    omega
  refine ⟨hb, rfl, by omega, by omega, ?_, ?_⟩ <;> rw [hb]
  · exact decode_encode SyncType.command w h
  · exact decode_encode SyncType.data w h

/-- Claim C10: every word accepted with no extra-delay request produces its
own distinct bus-active interval: bus-active is low at the acceptance
tick, exhibits a fresh rising edge at the next tick, and is low again
once that word's serialization completes, so two consecutive words are
never covered by one continuous bus-active assertion. -/
theorem c10_distinct_intervals (wordT gapT : Nat) (ins : Nat → TxIn) (t : Nat)
    (hi : txStates wordT gapT ins t = TxPhase.idle)
    (hv : (ins t).valid = true)
    (hd : delayReq (ins t).tag = false) :
    txActive (txStates wordT gapT ins t) = false
    ∧ txActive (txStates wordT gapT ins (t + 1)) = true
    ∧ txActive (txStates wordT gapT ins (t + wordT + 2)) = false := by
  have h1 : txStates wordT gapT ins (t + 1) = TxPhase.busy wordT := by
    simp [txStates, hi, txStep, hv, hd]
  have h2 := txStates_busy_gap wordT gapT ins wordT (t + 1) h1
  have harith : t + wordT + 2 = t + 1 + wordT + 1 := by omega
  refine ⟨by rw [hi]; rfl, by rw [h1]; rfl, ?_⟩
  rw [harith, h2]
  rfl

/-- Input stream for the C3 witness: one delay-requesting word (tag `0xA`)
offered at tick 0, nothing afterwards. -/
def insC3 : Nat → TxIn :=
  fun u => if u = 0 then { valid := true, tag := 10 } else { valid := false, tag := 0 }

/-- Input stream for the C10 witness: one command word (tag `0x4`) offered
at tick 0, nothing afterwards. -/
def insC10 : Nat → TxIn :=
  fun u => if u = 0 then { valid := true, tag := 4 } else { valid := false, tag := 0 }

/-- Quiet input stream for the C6 witness: no word is ever offered. -/
def insQuiet : Nat → TxIn := fun _ => { valid := false, tag := 0 }

/-- Events for the C4 witness: a command word completing at tick 0 and a
data word completing at tick 10. -/
def evsC4 : List RxEvent :=
  [{ time := 0, sync := SyncType.command }, { time := 10, sync := SyncType.data }]

/-- Witness for C1 at the concrete word 54321, outside the tested 0..255
range. -/
theorem c1_roundtrip_witness :
    decodeBusWord (encodeBusWord SyncType.command 54321) = some (SyncType.command, 54321)
    ∧ decodeBusWord (encodeBusWord SyncType.data 54321) = some (SyncType.data, 54321) :=
  ⟨(c1_roundtrip 54321 (by decide)).2.2.1, (c1_roundtrip 54321 (by decide)).2.2.2.1⟩

/-- Witness for C3 with `wordT = 2`, `gapT = 3`: after the deassertion edge
at tick 8 the bus stays inactive through tick 10, and the delay-requested
word accepted at tick 0 leaves the bus inactive at tick 4. -/
theorem c3_min_gap_witness :
    txActive (txStates 2 3 insC3 (7 + 1 + 2)) = false
    ∧ txActive (txStates 2 3 insC3 (0 + 4)) = false :=
  ⟨(c3_min_gap 2 3 insC3 7).1 (by decide) (by decide) 2 (by decide),
   (c3_min_gap 2 3 insC3 0).2 (by decide) (by decide) (by decide) 4 (by decide)⟩

/-- Witness for C4: the data word of `evsC4` completes 10 ticks after the
command word, at least the 4-tick gap, so its gap flag reads 1. -/
theorem c4_gap_flag_witness :
    ((rxTagsFromReset 4 evsC4).getD (0 + 1) 0).testBit 3 =
      decide (4 ≤ (evsC4.getD (0 + 1) defaultEv).time - (evsC4.getD 0 defaultEv).time) :=
  c4_gap_flag 4 evsC4 0 (by decide)

/-- Witness for C6 with `wordT = 1`, `gapT = 1`: with no input offered the
transmit path reads ready at tick 5. -/
theorem c6_no_stall_witness : txReadyB (txStates 1 1 insQuiet 5) = true :=
  c6_no_stall 1 1 insQuiet 0 (fun _ _ => rfl) 5 (by decide)

/-- Witness for C8 with the harness value `settle = 20`: reset assertion
forces IN_RESET at once, tick 19 is not yet ACTIVE, tick 20 is. -/
theorem c8_reset_settle_witness :
    resetStep 20 true (RState.settling 5) = RState.inReset
    ∧ resetRun 20 19 ≠ RState.active
    ∧ resetRun 20 20 = RState.active :=
  ⟨(c8_reset_settle 20 (by decide)).1 (RState.settling 5),
   (c8_reset_settle 20 (by decide)).2.1 19 (by decide),
   (c8_reset_settle 20 (by decide)).2.2⟩

/-- Witness for C9 at the concrete word 513 = bytes [1, 2] little-endian. -/
theorem c9_little_endian_witness : fromBytesLE (toBytesLE 513) = 513 :=
  (c9_little_endian 513 (by decide)).1

/-- Witness for C10 with `wordT = 2`, `gapT = 1`: the command word accepted
at tick 0 yields a rising edge at tick 1 and deassertion by tick 4. -/
theorem c10_distinct_intervals_witness :
    txActive (txStates 2 1 insC10 0) = false
    ∧ txActive (txStates 2 1 insC10 (0 + 1)) = true
    ∧ txActive (txStates 2 1 insC10 (0 + 2 + 2)) = false :=
  c10_distinct_intervals 2 1 insC10 0 (by decide) (by decide) (by decide)
